import Mathlib

/-!
# Verification of the karaoke-player lyrics engine

Shallow embedding of the core of `Tensura0/karaoke-player-py`:

* the LRC-lyrics parser `KaraokePlayer.load_lyrics`
  (`src/lyrics-bro/support/karaoke_universal.py`, identical code in
  `src/lyrics-bro/main.py`),
* the synchronized playback loop `KaraokePlayer.play` (same files),
* the timestamp arithmetic of `src/lyrics-bro/support/adjust_timing.py`
  (`parse_timestamp`, `format_timestamp`, `adjust_lrc_timing`).

Modelling conventions:

* Python strings are modelled as `List Char`; Python floats are modelled as
  exact rationals `ℚ` (every number the code manipulates is of the form
  `m * 60 + s + c / 100`, so the arithmetic of the source is exact up to
  the usual double rounding, which no claim's bound ever approaches except
  where noted).
* Python `int(str)` is modelled by `pyInt`: surrounding whitespace is
  stripped, an optional `+`/`-` sign is accepted (Python's `int` parses
  *signed* integers), then ASCII digits with CPython's single-underscore
  separator rule.  Non-ASCII digit forms are outside the modelled subset.
* The wall clock and the `pygame.mixer.music.get_busy()` predicate are
  external inputs; one iteration of the playback loop consumes one sample
  `(busy, now)` from a finite list.
-/

namespace Karaoke

/-! ## Kernel-reducible rational arithmetic

Batteries marks `Rat.add`, `Rat.sub`, `Rat.mul`, `Rat.inv` (hence `/`) and
`Rat.ofScientific` `@[irreducible]`, so concrete playback runs would not
evaluate with `decide`.  The embedding therefore computes with the wrappers
below, each proved equal to the corresponding field operation on `ℚ`
(`qAdd_eq` …), so every statement about them transfers to `+`, `-`, `*`,
`/`. -/

/-- Kernel-reducible addition on `ℚ` (`qAdd_eq : qAdd a b = a + b`). -/
def qAdd (a b : ℚ) : ℚ := mkRat (a.num * b.den + b.num * a.den) (a.den * b.den)

/-- Kernel-reducible subtraction on `ℚ` (`qSub_eq : qSub a b = a - b`). -/
def qSub (a b : ℚ) : ℚ := mkRat (a.num * b.den - b.num * a.den) (a.den * b.den)

/-- Kernel-reducible multiplication on `ℚ` (`qMul_eq : qMul a b = a * b`). -/
def qMul (a b : ℚ) : ℚ := mkRat (a.num * b.num) (a.den * b.den)

/-- Kernel-reducible division on `ℚ` (`qDiv_eq : qDiv a b = a / b`; like
Lean's `/`, it sends division by zero to `0`, a case no claim exercises). -/
def qDiv (a b : ℚ) : ℚ := Rat.divInt (a.num * b.den) (b.num * a.den)

/-! ## Python string primitives -/

/-- The ASCII whitespace characters stripped by Python's `str.strip()`. -/
def isPyWs (c : Char) : Bool :=
  c = ' ' || c = '\t' || c = '\n' || c = '\r' || c = '\x0b' || c = '\x0c'

/-- `str.strip()`: remove leading and trailing whitespace. -/
def pyStrip (cs : List Char) : List Char :=
  ((cs.dropWhile isPyWs).reverse.dropWhile isPyWs).reverse

/-- `line.rstrip('\n\r')` as used by `adjust_lrc_timing`. -/
def rstripNL (cs : List Char) : List Char :=
  (cs.reverse.dropWhile fun c => c = '\n' || c = '\r').reverse

/-- `str.find(target)` restricted to single characters: index of the first
occurrence, `none` when absent (Python returns `-1`). -/
def findChar (target : Char) : List Char → Option Nat
  | [] => none
  | c :: rest => if c = target then some 0 else (findChar target rest).map (· + 1)

/-- `str.split(sep)` for a single-character separator.  Like Python's
`split`, the empty string yields `[""]` and separators at the ends yield
empty fields. -/
def splitOnChar (sep : Char) : List Char → List (List Char)
  | [] => [[]]
  | c :: rest =>
    if c = sep then [] :: splitOnChar sep rest
    else
      match splitOnChar sep rest with
      | [] => [[c]]
      | g :: gs => (c :: g) :: gs

/-- ASCII decimal digit test (`'0'` is 48, `'9'` is 57). -/
def isPyDigit (c : Char) : Bool :=
  48 ≤ c.toNat && c.toNat ≤ 57

/-- Numeric value of an ASCII digit character. -/
def digitVal (c : Char) : Nat := c.toNat - 48

/-- The ASCII digit character for a value `0 ≤ d ≤ 9`. -/
def digitChar (d : Nat) : Char := Char.ofNat (48 + d)

/-- Value of a big-endian ASCII digit string. -/
def digitsVal (cs : List Char) : Nat :=
  cs.foldl (fun a c => a * 10 + digitVal c) 0

/-- Tail of a valid CPython digit group: digits, with single `_` separators
that must be followed by a digit. -/
def validDigitsTail : List Char → Bool
  | [] => true
  | c :: rest =>
    if c = '_' then
      match rest with
      | [] => false
      | c2 :: _ => isPyDigit c2 && validDigitsTail rest
    else isPyDigit c && validDigitsTail rest

/-- A valid CPython digit sequence for `int()`: nonempty, starts with a
digit, single `_` separators allowed between digits. -/
def validDigits : List Char → Bool
  | [] => false
  | c :: rest => isPyDigit c && validDigitsTail rest

/-- Python's `int(str)`: strip whitespace, optional sign, digit sequence
(with underscore separators); any other shape raises, modelled as `none`. -/
def pyInt (cs : List Char) : Option Int :=
  match pyStrip cs with
  | [] => none
  | c :: rest =>
    if c = '+' then
      if validDigits rest then
        some ((digitsVal (rest.filter fun c => c ≠ '_') : Int))
      else none
    else if c = '-' then
      if validDigits rest then
        some (-(digitsVal (rest.filter fun c => c ≠ '_') : Int))
      else none
    else
      if validDigits (c :: rest) then
        some ((digitsVal ((c :: rest).filter fun c => c ≠ '_') : Int))
      else none

/-- Big-endian decimal digits of `n`, fuel-driven so that it reduces in the
kernel; `natToChars` supplies enough fuel. -/
def natToCharsAux : Nat → Nat → List Char
  | 0, _ => []
  | fuel + 1, n =>
    if n < 10 then [digitChar n]
    else natToCharsAux fuel (n / 10) ++ [digitChar (n % 10)]

/-- Decimal representation of a natural number (Python's `"%d" % n`). -/
def natToChars (n : Nat) : List Char := natToCharsAux (n + 1) n

/-- Python's `f"{n:02d}"` for `n ≥ 0`: pad to two digits with a leading 0. -/
def pad2 (n : Nat) : List Char :=
  if n < 10 then '0' :: natToChars n else natToChars n

/-! ## The lyrics parser (`KaraokePlayer.load_lyrics`) -/

/-- `total_seconds = minutes * 60 + seconds + centiseconds / 100.0`, the
formula shared by `load_lyrics` and `adjust_timing.parse_timestamp`
(`lyricTime_eq` restates it with the field operations of `ℚ`). -/
def lyricTime (minutes seconds centi : Int) : ℚ :=
  qAdd (qAdd (qMul (minutes : ℚ) 60) (seconds : ℚ)) (qDiv (centi : ℚ) 100)

/-- One parsed lyric line, the dict
`{'time': total_seconds, 'text': text, 'timestamp': timestamp}` appended to
`self.lyrics` by `load_lyrics`. -/
structure LyricLine where
  time : ℚ
  text : String
  timestamp : List Char
  deriving DecidableEq

/-- The body of the `for line in lines:` loop of `load_lyrics`
(karaoke_universal.py lines 43-76): strip the line; skip it when empty or
when it has no `]` (the source tests `']' not in line` and then calls
`line.find(']')`, which we fuse into one match on `findChar`, `none`
exactly when `']'` is absent); take `line[1:bracket_pos]` as the timestamp
and `line[bracket_pos+1:].strip()` as the text, skipping empty text; then
convert the timestamp, where any failure inside the `try` block (a missing
`:` field or a failing `int`) drops the line. -/
def parseLine (raw : List Char) : Option LyricLine :=
  let line := pyStrip raw
  match findChar ']' line with
  | none => none
  | some bracketPos =>
    let timestamp := (line.take bracketPos).drop 1
    let text := pyStrip (line.drop (bracketPos + 1))
    if text.isEmpty then none
    else
      match splitOnChar ':' timestamp with
      | [] => none
      | p0 :: ps =>
        match pyInt p0 with
        | none => none
        | some minutes =>
          match ps with
          | [] => none
          | p1 :: _ =>
            match splitOnChar '.' p1 with
            | [] => none
            | s0 :: ss =>
              match pyInt s0 with
              | none => none
              | some seconds =>
                match ss with
                | [] =>
                  some ⟨lyricTime minutes seconds 0, ⟨text⟩, timestamp⟩
                | s1 :: _ =>
                  match pyInt s1 with
                  | none => none
                  | some centi =>
                    some ⟨lyricTime minutes seconds centi, ⟨text⟩, timestamp⟩

/-- A strip of `parseLine` over the lines of the file: `self.lyrics` in file
order, before the final sort.  (An empty `line` is also skipped by
`parseLine` itself: a stripped-empty line has no `]`.) -/
def parsedInOrder (text : String) : List LyricLine :=
  (splitOnChar '\n' text.data).filterMap parseLine

/-- The sort key of `self.lyrics.sort(key=lambda x: x['time'])`. -/
def timeLE (a b : LyricLine) : Prop := a.time ≤ b.time

instance : DecidableRel timeLE := fun a b => inferInstanceAs (Decidable (a.time ≤ b.time))

instance : IsTotal LyricLine timeLE := ⟨fun a b => le_total a.time b.time⟩

instance : IsTrans LyricLine timeLE := ⟨fun _ _ _ => le_trans⟩

/-- `KaraokePlayer.load_lyrics` on the raw text of the lyrics file: parse
each line, then `self.lyrics.sort(key=lambda x: x['time'])`.  Python's
`list.sort` is a stable sort by the key; any stable sort by the same key
produces the same list, so it is modelled by stable insertion sort. -/
def load_lyrics (text : String) : List LyricLine :=
  (parsedInOrder text).insertionSort timeLE

/-- `total_duration = self.lyrics[-1]['time']`; the source only evaluates
this when the list is nonempty, and the spec's LyricsTimeline defines the
duration of an empty timeline as `0`. -/
def duration (lyrics : List LyricLine) : ℚ :=
  ((lyrics.getLast?).map LyricLine.time).getD 0

/-! ## The playback loop (`KaraokePlayer.play`)

One iteration of the `while True:` loop consumes one external sample
`(busy, now)`: `busy` is `pygame.mixer.music.get_busy()` and `now` is the
elapsed wall-clock time `time.time() - self.start_time` this tick would
observe.  The loop's mutable locals are the fields of `LoopState`. -/

/-- The locals `current_line_index`, `displayed_lines`, `last_update_time`
of `KaraokePlayer.play`, initialized to `0`, `[]`, `0`. -/
structure LoopState where
  currentLineIndex : Nat
  displayedLines : List String
  lastUpdateTime : ℚ
  deriving DecidableEq

/-- The initial loop state. -/
def initState : LoopState := ⟨0, [], 0⟩

/-- The "previous lines" block of the display (karaoke_universal.py lines
181-190): when `displayed_lines` is nonempty,
`num_prev = min(3, len-1) if should_update else min(3, len)`,
`start_idx = max(0, len - num_prev - (1 if should_update else 0))`, and the
slice `displayed_lines[start_idx : len - (1 if should_update else 0)]` is
printed dimmed.  Python's `max(0, ·)` is `Nat` truncated subtraction and a
slice `[i:j]` is `take j` then `drop i`. -/
def prevLines (displayed : List String) (shouldUpdate : Bool) : List String :=
  if displayed.isEmpty then []
  else
    let len := displayed.length
    let numPrev := if shouldUpdate then min 3 (len - 1) else min 3 len
    let adj : Nat := if shouldUpdate then 1 else 0
    (displayed.take (len - adj)).drop (len - numPrev - adj)

/-- One emitted screen update, the spec's RenderFrame: everything the
display block of `KaraokePlayer.play` prints that depends on the session
state. -/
structure RenderFrame where
  elapsed : ℚ
  isNewLine : Bool
  previousLines : List String
  currentLine : Option String
  upcoming : Option (String × ℚ)
  progress : ℚ
  linesShown : Nat
  totalLines : Nat
  deriving DecidableEq

/-- The frame printed by the display block, built from the post-advance
state `st1`: `previousLines` per `prevLines`; the current (last displayed)
line, highlighted when `should_update`; the "Coming up in …s" preview,
shown only when `0 < time_until_next < 10`; the progress ratio
`min(current_time / (last_time + 10), 1.0)` (Python's `min` written as an
`if`); and the `Line {len(displayed_lines)}/{len(self.lyrics)}` counter. -/
def mkFrame (lyrics : List LyricLine) (st1 : LoopState) (t : ℚ) (su : Bool) :
    RenderFrame :=
  { elapsed := t
    isNewLine := su
    previousLines := prevLines st1.displayedLines su
    currentLine := st1.displayedLines.getLast?
    upcoming :=
      match lyrics[st1.currentLineIndex]? with
      | some nl =>
        if 0 < qSub nl.time t ∧ qSub nl.time t < 10 then some (nl.text, qSub nl.time t)
        else none
      | none => none
    progress :=
      match lyrics.getLast? with
      | some last =>
        let p := qDiv t (qAdd last.time 10)
        if p ≤ 1 then p else 1
      | none => 0
    linesShown := st1.displayedLines.length
    totalLines := lyrics.length }

/-- One iteration of the playback loop after the `get_busy()` check
(karaoke_universal.py lines 152-222): if the cursor line's time has been
reached, advance the cursor and append the line's text to
`displayed_lines` (`should_update = True`); then, if `should_update` or
half a second has passed since `last_update_time`, set
`last_update_time = current_time` and emit a frame. -/
def tick (lyrics : List LyricLine) (st : LoopState) (t : ℚ) :
    LoopState × Option RenderFrame :=
  let adv :=
    match lyrics[st.currentLineIndex]? with
    | some nl =>
      if nl.time ≤ t then
        some { st with
               currentLineIndex := st.currentLineIndex + 1
               displayedLines := st.displayedLines ++ [nl.text] }
      else none
    | none => none
  let su := adv.isSome
  let st1 := adv.getD st
  if su || decide (mkRat 1 2 ≤ qSub t st1.lastUpdateTime) then
    ({ st1 with lastUpdateTime := t }, some (mkFrame lyrics st1 t su))
  else (st1, none)

/-- The `while True:` loop over a finite list of `(busy, now)` samples:
each iteration first checks `get_busy()` and breaks (the Finished
transition) when it is false; otherwise it runs one `tick`.  The third
component records whether the loop terminated through the Finished
transition (`false` means the sample list ran out first). -/
def runLoop (lyrics : List LyricLine) :
    LoopState → List (Bool × ℚ) → List RenderFrame × LoopState × Bool
  | st, [] => ([], st, false)
  | st, (busy, t) :: rest =>
    if busy then
      let s := tick lyrics st t
      let r := runLoop lyrics s.1 rest
      (s.2.toList ++ r.1, r.2)
    else ([], st, true)

/-- The audio-only busy-wait of main.py lines 262-263
(`while pygame.mixer.music.get_busy(): time.sleep(0.1)`): consumes samples
until one reports not busy; returns whether that happened. -/
def audioOnlyWait : List (Bool × ℚ) → Bool
  | [] => false
  | (busy, _) :: rest => if busy then audioOnlyWait rest else true

/-- The externally observable outcome of one `KaraokePlayer.play` call. -/
structure PlayResult where
  audioStarted : Bool
  frames : List RenderFrame
  finished : Bool
  finalState : LoopState
  deriving DecidableEq

/-- `KaraokePlayer.play` of karaoke_universal.py: with no lyrics it prints
`"No lyrics loaded!"` and returns *before* `pygame.mixer.music.play()`, so
no audio starts, no frame is emitted and the Finished path is never
reached; otherwise audio starts and the tick loop runs. -/
def playUniversal (lyrics : List LyricLine) (samples : List (Bool × ℚ)) :
    PlayResult :=
  if lyrics.isEmpty then ⟨false, [], false, initState⟩
  else
    let r := runLoop lyrics initState samples
    ⟨true, r.1, r.2.2, r.2.1⟩

/-- `KaraokePlayer.play` of main.py: audio always starts; with no lyrics
the loop degrades to the no-render `audioOnlyWait`, otherwise the tick
loop runs. -/
def playMain (lyrics : List LyricLine) (samples : List (Bool × ℚ)) :
    PlayResult :=
  if lyrics.isEmpty then ⟨true, [], audioOnlyWait samples, initState⟩
  else
    let r := runLoop lyrics initState samples
    ⟨true, r.1, r.2.2, r.2.1⟩

/-! ## The timing adjuster (`support/adjust_timing.py`) -/

/-- `adjust_timing.parse_timestamp`: split on `:`; `minutes = int(parts[0])`;
if `'.' in parts[1]` split it on `.` and parse seconds and centiseconds,
else `seconds = int(parts[1])` with `centiseconds = 0`; every exception
(missing field, failing `int`) returns `None`.  Fields beyond the ones
indexed are ignored, as in the source. -/
def parse_timestamp (ts : List Char) : Option ℚ :=
  match splitOnChar ':' ts with
  | p0 :: p1 :: _ =>
    match pyInt p0 with
    | some minutes =>
      if p1.contains '.' then
        match splitOnChar '.' p1 with
        | s0 :: s1 :: _ =>
          match pyInt s0, pyInt s1 with
          | some s, some c => some (lyricTime minutes s c)
          | _, _ => none
        | _ => none
      else
        match pyInt p1 with
        | some s => some (lyricTime minutes s 0)
        | none => none
    | none => none
  | _ => none

/-- `adjust_timing.format_timestamp`: clamp negative input to `0`, then
`minutes = int(seconds // 60)`, `remaining = seconds % 60`,
`secs = int(remaining)`, `centi = int((remaining - secs) * 100)`, printed
as `f"{minutes:02d}:{secs:02d}.{centi:02d}"`.  After the clamp every
intermediate value is nonnegative, so Python's `int()` truncation is the
floor and `//`, `%` are floor division and its remainder.

This version idealizes the one floating-point rounding of the source —
the product `(remaining_seconds - secs) * 100` — as exact rational
arithmetic; `format_timestamp_float` below models that binary64 rounding
(which can lose a centisecond and is observable, see the claim-C7
theorem).  The clamp path for negative input is exact in floats, so this
version is faithful there. -/
def format_timestamp (seconds : ℚ) : List Char :=
  let s := if seconds < 0 then 0 else seconds
  let minutes : Int := Rat.floor (qDiv s 60)
  let remaining : ℚ := qSub s (qMul 60 (minutes : ℚ))
  let secs : Int := Rat.floor remaining
  let centi : Int := Rat.floor (qMul (qSub remaining (secs : ℚ)) 100)
  pad2 minutes.toNat ++ ':' :: (pad2 secs.toNat ++ '.' :: pad2 centi.toNat)

/-- The body of the `for line in lines:` loop of `adjust_lrc_timing`
(lines 81-116): strip trailing newline characters; if the line is nonempty
and contains `[` and `]` with the first `]` after the first `[`, parse
`line[bracket_start+1:bracket_end]` as a timestamp and, on success, emit
`f"[{format_timestamp(time + offset)}]{line[bracket_end+1:]}"`; in every
other case keep the line unchanged.  (When both brackets are present the
two `findChar` always succeed; the final arm is unreachable.) -/
def adjustLine (offset : ℚ) (line0 : List Char) : List Char :=
  let line := rstripNL line0
  if !line.isEmpty && line.contains '[' && line.contains ']' then
    match findChar '[' line, findChar ']' line with
    | some bs, some be =>
      if bs < be then
        match parse_timestamp ((line.take be).drop (bs + 1)) with
        | some t => '[' :: (format_timestamp (qAdd t offset) ++ ']' :: line.drop (be + 1))
        | none => line
      else line
    | _, _ => line
  else line

/-- `adjust_lrc_timing` on the list of lines of the input file (IO left
aside): every line is processed by `adjustLine`. -/
def adjust_lrc_timing (offset : ℚ) (lines : List (List Char)) : List (List Char) :=
  lines.map (adjustLine offset)

/-- The timed content of one line: the `(time, text)` pair the adjuster's
own extraction finds, `none` for lines it passes through verbatim.  Used to
state the round-trip claim about "the sequence of (time, text) pairs". -/
def timedPairOf (line0 : List Char) : Option (ℚ × List Char) :=
  let line := rstripNL line0
  if !line.isEmpty && line.contains '[' && line.contains ']' then
    match findChar '[' line, findChar ']' line with
    | some bs, some be =>
      if bs < be then
        (parse_timestamp ((line.take be).drop (bs + 1))).map
          fun t => (t, line.drop (be + 1))
      else none
    | _, _ => none
  else none

/-- The sequence of `(time, text)` pairs of a file. -/
def pairsOf (lines : List (List Char)) : List (ℚ × List Char) :=
  lines.filterMap timedPairOf

/-- Pointwise comparison of two pair sequences: same length, identical
texts, times within `eps` of each other. -/
def pairsClose (eps : ℚ) : List (ℚ × List Char) → List (ℚ × List Char) → Bool
  | [], [] => true
  | (t, x) :: xs, (t', x') :: ys =>
    decide (x = x') && decide (qSub t t' ≤ eps) && decide (qSub t' t ≤ eps) &&
      pairsClose eps xs ys
  | _, _ => false

/-! ## The adjuster pipeline with binary64 rounding

The adjuster actually computes on Python floats (IEEE-754 binary64).
`fl` below is round-to-nearest-even at 53-bit precision on exact
rationals (normal range only: the pipeline's values are centisecond-scale
timestamps, far from overflow and subnormals).  Only four operations of
the pipeline round: in `parse_timestamp`, `centiseconds / 100.0` and the
final float addition (the preceding `minutes * 60 + seconds` is exact
Python `int` arithmetic, converted to float by the addition); in
`adjust_lrc_timing`, `time_seconds + offset_seconds`; in
`format_timestamp`, `(remaining_seconds - secs) * 100`.  The remaining
float operations are exact on these inputs and are modelled exactly:
`//`, `%` and `int()` of IEEE doubles return the mathematically exact
floor, remainder and truncation when representable, and
`remaining_seconds - secs` subtracts the integer part of a double below
`64`, whose difference is representable, hence exact. -/

/-- Number of binary digits of `n` (`0` for `0`), fuel-driven so that it
reduces in the kernel. -/
def bitlenAux : Nat → Nat → Nat
  | 0, _ => 0
  | fuel + 1, n => if n = 0 then 0 else bitlenAux fuel (n / 2) + 1

/-- `n.bit_length()`: position of the highest set bit plus one. -/
def bitlen (n : Nat) : Nat := bitlenAux (n + 1) n

/-- Decide `2 ^ e ≤ x` for an integer exponent without rational
division: compare numerators and denominators scaled by powers of two. -/
def pow2le (e : Int) (x : ℚ) : Bool :=
  if 0 ≤ e then decide ((2 ^ e.toNat * x.den : Int) ≤ x.num)
  else decide ((x.den : Int) ≤ 2 ^ (-e).toNat * x.num)

/-- `⌊log₂ x⌋` for `x > 0`: the bit-length difference of numerator and
denominator is off by at most one, fixed up by one comparison. -/
def floorLog2 (x : ℚ) : Int :=
  let e0 : Int := (bitlen x.num.toNat : Int) - (bitlen x.den : Int)
  if pow2le e0 x then e0 else e0 - 1

/-- Round a rational to the nearest integer, ties to even (the IEEE-754
default rounding of the final mantissa). -/
def roundHalfEven (q : ℚ) : Int :=
  let f := Rat.floor q
  let r := qSub q ((f : Int) : ℚ)
  if r < mkRat 1 2 then f
  else if mkRat 1 2 < r then f + 1
  else if f % 2 = 0 then f else f + 1

/-- `|x|` with kernel-reducible negation. -/
def qabs (x : ℚ) : ℚ := if x < 0 then -x else x

/-- Round an exact rational to the nearest IEEE-754 binary64 value
(round-to-nearest, ties-to-even), for values in the normal range: scale
`|x|` into `[2^52, 2^53)`, round the mantissa half-to-even, and scale
back.  A mantissa that rounds up to `2^53` still yields the correct
value `2^(e+1)`. -/
def fl (x : ℚ) : ℚ :=
  if x = 0 then 0
  else
    let sgn : Int := if x < 0 then -1 else 1
    let ax := qabs x
    let e := floorLog2 ax
    let scaled : ℚ :=
      if 0 ≤ 52 - e then qMul ax ((2 ^ (52 - e).toNat : Int) : ℚ)
      else qDiv ax ((2 ^ (e - 52).toNat : Int) : ℚ)
    let m := roundHalfEven scaled
    if 0 ≤ e - 52 then ((sgn * m * 2 ^ (e - 52).toNat : Int) : ℚ)
    else qDiv ((sgn * m : Int) : ℚ) ((2 ^ (52 - e).toNat : Int) : ℚ)

/-- `minutes * 60 + seconds + centiseconds / 100.0` as the source's float
pipeline evaluates it: exact `int` arithmetic for `minutes * 60 +
seconds`, float division for `centiseconds / 100.0`, then one float
addition (the `int` operand is converted to a double by the addition). -/
def pyFloatTime (minutes seconds centi : Int) : ℚ :=
  fl (qAdd (fl ((minutes * 60 + seconds : Int) : ℚ)) (fl (qDiv (centi : ℚ) 100)))

/-- `adjust_timing.parse_timestamp` with binary64 arithmetic: identical
control flow to `parse_timestamp`, value computed by `pyFloatTime`. -/
def parse_timestamp_float (ts : List Char) : Option ℚ :=
  match splitOnChar ':' ts with
  | p0 :: p1 :: _ =>
    match pyInt p0 with
    | some minutes =>
      if p1.contains '.' then
        match splitOnChar '.' p1 with
        | s0 :: s1 :: _ =>
          match pyInt s0, pyInt s1 with
          | some s, some c => some (pyFloatTime minutes s c)
          | _, _ => none
        | _ => none
      else
        match pyInt p1 with
        | some s => some (pyFloatTime minutes s 0)
        | none => none
    | none => none
  | _ => none

/-- `adjust_timing.format_timestamp` with binary64 arithmetic: identical
to `format_timestamp` except that the one rounding float operation, the
product `(remaining_seconds - secs) * 100`, goes through `fl` (see the
section comment for why the other operations are exact). -/
def format_timestamp_float (seconds : ℚ) : List Char :=
  let s := if seconds < 0 then 0 else seconds
  let minutes : Int := Rat.floor (qDiv s 60)
  let remaining : ℚ := qSub s (qMul 60 (minutes : ℚ))
  let secs : Int := Rat.floor remaining
  let centi : Int := Rat.floor (fl (qMul (qSub remaining (secs : ℚ)) 100))
  pad2 minutes.toNat ++ ':' :: (pad2 secs.toNat ++ '.' :: pad2 centi.toNat)

/-- One line of `adjust_lrc_timing` with binary64 arithmetic: the float
addition `time_seconds + offset_seconds` rounds. -/
def adjustLine_float (offset : ℚ) (line0 : List Char) : List Char :=
  let line := rstripNL line0
  if !line.isEmpty && line.contains '[' && line.contains ']' then
    match findChar '[' line, findChar ']' line with
    | some bs, some be =>
      if bs < be then
        match parse_timestamp_float ((line.take be).drop (bs + 1)) with
        | some t =>
          '[' :: (format_timestamp_float (fl (qAdd t offset)) ++ ']' :: line.drop (be + 1))
        | none => line
      else line
    | _, _ => line
  else line

/-- `adjust_lrc_timing` with binary64 arithmetic. -/
def adjust_lrc_timing_float (offset : ℚ) (lines : List (List Char)) : List (List Char) :=
  lines.map (adjustLine_float offset)

/-- The `(time, text)` pair of one line under the binary64 pipeline. -/
def timedPairOf_float (line0 : List Char) : Option (ℚ × List Char) :=
  let line := rstripNL line0
  if !line.isEmpty && line.contains '[' && line.contains ']' then
    match findChar '[' line, findChar ']' line with
    | some bs, some be =>
      if bs < be then
        (parse_timestamp_float ((line.take be).drop (bs + 1))).map
          fun t => (t, line.drop (be + 1))
      else none
    | _, _ => none
  else none

/-- The sequence of `(time, text)` pairs of a file under the binary64
pipeline. -/
def pairsOf_float (lines : List (List Char)) : List (ℚ × List Char) :=
  lines.filterMap timedPairOf_float

/-! ## The spec's line-keeping rule, for comparison (claim C3)

Modelled from the spec: "A line is kept only if: it contains both `[` and
`]` (… treat the first `[...]` segment found by the scan as timestamp,
remainder as text), the timestamp segment parses as `<int>:<int>[.<int>]`,
and the trailing text after the closing bracket is non-empty after
trimming whitespace."  This is the claim's wording, to be compared with
`parseLine`, which is translated from the source. -/

/-- The spec's timestamp shape `<int>:<int>[.<int>]`. -/
def tsMatches (ts : List Char) : Bool :=
  match splitOnChar ':' ts with
  | [a, b] =>
    (pyInt a).isSome &&
    (match splitOnChar '.' b with
     | [s] => (pyInt s).isSome
     | [s, c] => (pyInt s).isSome && (pyInt c).isSome
     | _ => false)
  | _ => false

/-- Modelled from the spec: the keep rule claim C3 states — both brackets
present, the first `[...]` segment a `<int>:<int>[.<int>]` timestamp, and
nonempty trimmed text after the closing bracket. -/
def specKeep (raw : List Char) : Bool :=
  let line := pyStrip raw
  match findChar '[' line with
  | none => false
  | some i =>
    match findChar ']' (line.drop (i + 1)) with
    | none => false
    | some j =>
      tsMatches ((line.drop (i + 1)).take j) &&
        !(pyStrip ((line.drop (i + 1)).drop (j + 1))).isEmpty

/-- The keep rule the source actually implements, written as one guard for
the amended claim C3: the stripped line has a `]`; the text after the
first `]` is nonempty after trimming; the segment from index 1 (the first
character is skipped unconditionally, whatever it is) to the first `]`
splits on `:` into at least two fields; the first field and the
first-`.`-field of the second parse as (signed) Python ints, and when the
second field contains a `.`, so does the part after it; fields beyond
those are ignored. -/
def codeKeep (raw : List Char) : Bool :=
  let line := pyStrip raw
  match findChar ']' line with
  | none => false
  | some bp =>
    !(pyStrip (line.drop (bp + 1))).isEmpty &&
    (match splitOnChar ':' ((line.take bp).drop 1) with
     | p0 :: p1 :: _ =>
       (pyInt p0).isSome &&
       (match splitOnChar '.' p1 with
        | s0 :: rest =>
          (pyInt s0).isSome &&
          (match rest with
           | [] => true
           | s1 :: _ => (pyInt s1).isSome)
        | [] => false)
     | _ => false)

/-! ## Claims -/

/-- Two lines 1 millisecond apart, for the burst scenario of claim C1. -/
def burstDemo : List LyricLine :=
  [⟨1, "x", "00:01.00".data⟩, ⟨mkRat 1001 1000, "y", "00:01.00".data⟩]

/-- A one-line timeline, for the witness of claim C8. -/
def c8Lyr : List LyricLine := [⟨0, "x", "00:00.00".data⟩]

/-- The frame the first tick of `c8Lyr` emits. -/
def c8Fr : RenderFrame := mkFrame c8Lyr ⟨1, ["x"], 0⟩ 0 true

/-- The timeline of the end-to-end scenario of claim C2. -/
def c2Lyrics : List LyricLine :=
  load_lyrics "[00:00.00]a\n[00:01.00]b\n[00:03.00]c"

/-- The clock/predicate samples of claim C2: the clock reads 0,1,2,3,4 on
five ticks on which the predicate reports playing; afterwards it reports
stopped. -/
def c2Samples : List (Bool × ℚ) :=
  [(true, 0), (true, 1), (true, 2), (true, 3), (true, 4), (false, 4)]

/-- The playback run of claim C2. -/
def c2Run : PlayResult := playUniversal c2Lyrics c2Samples

/-- The aspects of a frame claim C2 talks about: when it was emitted,
whether it surfaced a new line, and which line is current. -/
def frameSummary (f : RenderFrame) : ℚ × Bool × Option String :=
  (f.elapsed, f.isNewLine, f.currentLine)

/-! ## Theorems -/

theorem qAdd_eq (a b : ℚ) : qAdd a b = a + b := by
  rw [qAdd, Rat.mkRat_eq_div]
  have ha : (a.den : ℚ) ≠ 0 := by exact_mod_cast a.den_nz
  have hb : (b.den : ℚ) ≠ 0 := by exact_mod_cast b.den_nz
  conv_rhs => rw [← Rat.num_div_den a, ← Rat.num_div_den b]
  field_simp

theorem qSub_eq (a b : ℚ) : qSub a b = a - b := by
  rw [qSub, Rat.mkRat_eq_div]
  have ha : (a.den : ℚ) ≠ 0 := by exact_mod_cast a.den_nz
  have hb : (b.den : ℚ) ≠ 0 := by exact_mod_cast b.den_nz
  conv_rhs => rw [← Rat.num_div_den a, ← Rat.num_div_den b]
  field_simp
  ring

theorem qMul_eq (a b : ℚ) : qMul a b = a * b := by
  rw [qMul, Rat.mkRat_eq_div]
  have ha : (a.den : ℚ) ≠ 0 := by exact_mod_cast a.den_nz
  have hb : (b.den : ℚ) ≠ 0 := by exact_mod_cast b.den_nz
  conv_rhs => rw [← Rat.num_div_den a, ← Rat.num_div_den b]
  field_simp

theorem qDiv_eq (a b : ℚ) : qDiv a b = a / b := by
  rw [qDiv, Rat.divInt_eq_div]
  by_cases hb : b = 0
  · subst hb; simp
  have ha : (a.den : ℚ) ≠ 0 := by exact_mod_cast a.den_nz
  have hbd : (b.den : ℚ) ≠ 0 := by exact_mod_cast b.den_nz
  have hbn : (b.num : ℚ) ≠ 0 := by simpa using Rat.num_ne_zero.mpr hb
  conv_rhs => rw [← Rat.num_div_den a, ← Rat.num_div_den b]
  push_cast
  rw [div_div_div_eq]
  ring_nf

theorem lyricTime_eq (m s c : Int) :
    lyricTime m s c = (m : ℚ) * 60 + (s : ℚ) + (c : ℚ) / 100 := by
  rw [lyricTime, qAdd_eq, qAdd_eq, qMul_eq, qDiv_eq]

/-! ## Helper lemmas: the previous-lines block -/

/-- On a `should_update` frame the slice is the last at most three elements
of `displayed_lines` *without* its final element. -/
theorem prevLines_advance (d : List String) :
    prevLines d true = d.dropLast.drop (d.dropLast.length - 3) := by
  cases d with
  | nil => rfl
  | cons x xs =>
    show ((x :: xs).take ((x :: xs).length - 1)).drop
        ((x :: xs).length - min 3 ((x :: xs).length - 1) - 1) = _
    rw [← List.dropLast_eq_take]
    congr 1
    rw [List.length_dropLast]
    omega

/-- On a periodic-refresh frame the slice is the last at most three
elements of `displayed_lines`, final element included. -/
theorem prevLines_refresh (d : List String) :
    prevLines d false = d.drop (d.length - 3) := by
  cases d with
  | nil => rfl
  | cons x xs =>
    show ((x :: xs).take ((x :: xs).length - 0)).drop
        ((x :: xs).length - min 3 (x :: xs).length - 0) = _
    simp only [Nat.sub_zero]
    rw [List.take_length]
    congr 1
    omega

theorem prevLines_length_le (d : List String) (b : Bool) :
    (prevLines d b).length ≤ 3 := by
  cases b
  · rw [prevLines_refresh, List.length_drop]; omega
  · rw [prevLines_advance, List.length_drop]; omega

/-- Dropping a prefix does not change the last element, as long as
something remains. -/
theorem getLast?_drop_of_ne_nil {α : Type} {l : List α} {n : Nat}
    (h : l.drop n ≠ []) : (l.drop n).getLast? = l.getLast? := by
  have hn : n < l.length := by
    by_contra hh
    push_neg at hh
    exact h (List.drop_eq_nil_of_le hh)
  rw [List.getLast?_eq_getElem?, List.getLast?_eq_getElem?, List.length_drop,
    List.getElem?_drop]
  congr 1
  omega

/-- The last element of a list lies in its length-at-most-3 tail. -/
theorem getLast_mem_drop_sub_three (d : List String) (c : String)
    (h : d.getLast? = some c) : c ∈ d.drop (d.length - 3) := by
  have hne : d ≠ [] := by
    intro he
    subst he
    cases h
  have hlen : 0 < d.length := List.length_pos.mpr hne
  have hdne : d.drop (d.length - 3) ≠ [] := by
    intro he
    have h2 := congrArg List.length he
    rw [List.length_drop] at h2
    simp only [List.length_nil] at h2
    omega
  have h2 := getLast?_drop_of_ne_nil hdne
  rw [h, List.getLast?_eq_getLast _ hdne] at h2
  have h3 := List.getLast_mem hdne
  rw [Option.some_inj.mp h2] at h3
  exact h3


/-! ## Helper lemmas: one tick of the loop -/

/-- How `tick` transforms the state: the cursor and the history either both
stay or both advance by exactly one line, and the frame (when emitted)
reads the post-advance state. -/
theorem tick_cases (lyrics : List LyricLine) (st : LoopState) (t : ℚ) :
    ((tick lyrics st t).1.currentLineIndex = st.currentLineIndex ∧
      (tick lyrics st t).1.displayedLines = st.displayedLines) ∨
    ((tick lyrics st t).1.currentLineIndex = st.currentLineIndex + 1 ∧
      ∃ nl, lyrics[st.currentLineIndex]? = some nl ∧
        (tick lyrics st t).1.displayedLines = st.displayedLines ++ [nl.text]) := by
  unfold tick
  cases h : lyrics[st.currentLineIndex]? with
  | none =>
    simp only [h]
    split
    · exact Or.inl ⟨rfl, rfl⟩
    · exact Or.inl ⟨rfl, rfl⟩
  | some nl =>
    simp only [h]
    by_cases hle : nl.time ≤ t
    · simp only [if_pos hle]
      split
      · exact Or.inr ⟨rfl, nl, rfl, rfl⟩
      · exact Or.inr ⟨rfl, nl, rfl, rfl⟩
    · simp only [if_neg hle]
      split
      · exact Or.inl ⟨rfl, rfl⟩
      · exact Or.inl ⟨rfl, rfl⟩

/-- An emitted frame reads the post-advance state: its `previousLines` is
the `prevLines` slice of the new `displayed_lines` for its own
`isNewLine` flag, and its current line is the last displayed line. -/
theorem tick_frame (lyrics : List LyricLine) (st : LoopState) (t : ℚ)
    (fr : RenderFrame) (h : (tick lyrics st t).2 = some fr) :
    fr.previousLines = prevLines (tick lyrics st t).1.displayedLines fr.isNewLine ∧
    fr.currentLine = (tick lyrics st t).1.displayedLines.getLast? := by
  unfold tick at h ⊢
  cases hl : lyrics[st.currentLineIndex]? with
  | none =>
    simp only [hl] at h ⊢
    by_cases hc : mkRat 1 2 ≤ qSub t st.lastUpdateTime
    · simp only [hc, decide_eq_true_eq, if_pos, Option.isSome_none, Option.getD_none,
        Bool.false_or, decide_True] at h ⊢
      cases h
      exact ⟨rfl, rfl⟩
    · simp only [hc, Option.isSome_none, Option.getD_none, Bool.false_or,
        decide_False, if_neg, Bool.false_eq_true, if_false] at h
      cases h
  | some nl =>
    simp only [hl] at h ⊢
    by_cases hle : nl.time ≤ t
    · simp only [hle, if_pos, Option.isSome_some, Option.getD_some, Bool.true_or,
        if_true] at h ⊢
      cases h
      exact ⟨rfl, rfl⟩
    · simp only [hle, if_neg, Option.isSome_none, Option.getD_none, Bool.false_or,
        Bool.false_eq_true, if_false] at h ⊢
      by_cases hc : mkRat 1 2 ≤ qSub t st.lastUpdateTime
      · simp only [hc, decide_True, if_true] at h ⊢
        cases h
        exact ⟨rfl, rfl⟩
      · simp only [hc, decide_False, Bool.false_eq_true, if_false] at h
        cases h

/-- C1: on every single tick the cursor index increases by at most one
(and never decreases) and at most one line is appended to the history,
even when the sampled clock has passed several unconsumed trigger times;
concretely, with lines at `t = 1` and `t + ε = 1.001` and the clock
jumping straight to `5`, the first tick surfaces only `x` and the second
tick surfaces `y`. -/
theorem at_most_one_advance_per_tick :
    (∀ (lyrics : List LyricLine) (st : LoopState) (t : ℚ),
      st.currentLineIndex ≤ (tick lyrics st t).1.currentLineIndex ∧
      (tick lyrics st t).1.currentLineIndex ≤ st.currentLineIndex + 1 ∧
      st.displayedLines.length ≤ (tick lyrics st t).1.displayedLines.length ∧
      (tick lyrics st t).1.displayedLines.length ≤ st.displayedLines.length + 1) ∧
    (tick burstDemo initState 5).1.displayedLines = ["x"] ∧
    (tick burstDemo (tick burstDemo initState 5).1 5).1.displayedLines = ["x", "y"] := by
  refine ⟨fun lyrics st t => ?_, by decide, by decide⟩
  rcases tick_cases lyrics st t with ⟨h1, h2⟩ | ⟨h1, nl, _, h2⟩ <;>
    rw [h1, h2] <;> simp

/-- C8: every emitted frame's `previousLines` is at most the 3 most
recently surfaced lines; on a line-advance frame (`isNewLine`) it is the
most recent at-most-3 lines *excluding* the just-added current line, and
on a periodic-refresh frame it is the most recent at-most-3 lines
*including* the current line, which is then a member of it. -/
theorem previous_lines_rule (lyrics : List LyricLine) (st : LoopState) (t : ℚ)
    (fr : RenderFrame) (h : (tick lyrics st t).2 = some fr) :
    fr.previousLines.length ≤ 3 ∧
    (fr.isNewLine = true →
      fr.previousLines =
        ((tick lyrics st t).1.displayedLines.dropLast).drop
          ((tick lyrics st t).1.displayedLines.dropLast.length - 3)) ∧
    (fr.isNewLine = false →
      fr.previousLines =
        (tick lyrics st t).1.displayedLines.drop
          ((tick lyrics st t).1.displayedLines.length - 3) ∧
      ∀ c, fr.currentLine = some c → c ∈ fr.previousLines) := by
  obtain ⟨hp, hcur⟩ := tick_frame lyrics st t fr h
  refine ⟨?_, ?_, ?_⟩
  · rw [hp]; exact prevLines_length_le _ _
  · intro hb; rw [hp, hb, prevLines_advance]
  · intro hb
    rw [hp, hb, prevLines_refresh]
    refine ⟨rfl, fun c hc => ?_⟩
    exact getLast_mem_drop_sub_three _ c (hcur.symm.trans hc)

/-- Witness for C8 at a concrete tick: the first tick of a one-line
timeline emits `c8Fr`. -/
theorem previous_lines_rule_witness :
    c8Fr.previousLines.length ≤ 3 ∧
    (c8Fr.isNewLine = true →
      c8Fr.previousLines =
        ((tick c8Lyr initState 0).1.displayedLines.dropLast).drop
          ((tick c8Lyr initState 0).1.displayedLines.dropLast.length - 3)) ∧
    (c8Fr.isNewLine = false →
      c8Fr.previousLines =
        (tick c8Lyr initState 0).1.displayedLines.drop
          ((tick c8Lyr initState 0).1.displayedLines.length - 3) ∧
      ∀ c, c8Fr.currentLine = some c → c ∈ c8Fr.previousLines) :=
  previous_lines_rule c8Lyr initState 0 c8Fr (by decide)

/-- C10: `format_timestamp` never emits a negative timestamp: every
negative input is clamped to `"00:00.00"`, so a negative offset silently
pins every line whose adjusted time falls below zero to `00:00.00` (shown
concretely on `[00:03.00]x` shifted by `-5`). -/
theorem format_timestamp_clamps_negative :
    (∀ s : ℚ, s < 0 → format_timestamp s = "00:00.00".data) ∧
    adjust_lrc_timing (-5) ["[00:03.00]x".data] = ["[00:00.00]x".data] := by
  constructor
  · intro s hs
    simp only [format_timestamp, if_pos hs]
    decide
  · decide

/-- Witness for C10: `format_timestamp (-1)` is `"00:00.00"`. -/
theorem format_timestamp_clamps_negative_witness :
    (-1 : ℚ) < 0 ∧ format_timestamp (-1) = "00:00.00".data :=
  ⟨by norm_num, format_timestamp_clamps_negative.1 (-1) (by norm_num)⟩

/-- Counterexample to C2 as stated: the run does *not* emit exactly the
four frames `a`@0, `b`@1, refresh@2, `c`@3 before finishing — a fifth
frame exists (the periodic refresh at t=4, see
`end_to_end_scenario`), because on the tick at t=4 the predicate still
reports playing and a full half-second has passed since the last update. -/
theorem end_to_end_scenario_as_stated_false :
    ¬ (c2Run.frames.map frameSummary =
        [(0, true, some "a"), (1, true, some "b"), (2, false, some "b"),
         (3, true, some "c")] ∧
       c2Run.finished = true) := by
  decide

/-- C2 amended: the run emits new-line frames surfacing `a` at t=0, `b` at
t=1, a periodic refresh with no new line at t=2, a new-line frame
surfacing `c` at t=3, *and one more periodic refresh with no new line at
t=4*, then transitions to Finished, with 3 of 3 lines shown. -/
theorem end_to_end_scenario :
    c2Run.audioStarted = true ∧
    c2Run.frames.map frameSummary =
      [(0, true, some "a"), (1, true, some "b"), (2, false, some "b"),
       (3, true, some "c"), (4, false, some "c")] ∧
    c2Run.finished = true ∧
    c2Run.frames.map (fun f => (f.linesShown, f.totalLines)) =
      [(1, 3), (2, 3), (2, 3), (3, 3), (3, 3)] ∧
    c2Run.finalState.currentLineIndex = 3 ∧
    c2Run.finalState.displayedLines = ["a", "b", "c"] := by
  decide

/-- `audioOnlyWait` reports Finished exactly when some sample reported the
audio stopped. -/
theorem audioOnlyWait_iff (samples : List (Bool × ℚ)) :
    audioOnlyWait samples = true ↔ ∃ s ∈ samples, s.1 = false := by
  induction samples with
  | nil => simp [audioOnlyWait]
  | cons s rest ih =>
    obtain ⟨busy, t⟩ := s
    cases busy <;> simp [audioOnlyWait, ih]

/-- Counterexample to C9 as stated: in karaoke_universal.py, running
`play` with the empty timeline does *not* enter an audio-only mode —
`play` returns before `pygame.mixer.music.play()`, so audio never starts
and the Finished transition never happens, even though the predicate
reports stopped on the second sample. -/
theorem empty_timeline_as_stated_false :
    ¬ ((playUniversal (load_lyrics "") [(true, 0), (false, 0)]).audioStarted = true ∧
       (playUniversal (load_lyrics "") [(true, 0), (false, 0)]).finished = true) := by
  decide

/-- C9 amended: parsing the empty string yields zero lines and duration 0.
In main.py's player the loop then degrades to audio-only mode: audio
starts, no frame is ever emitted, and the only event is the Finished
transition, which happens exactly when the still-playing predicate
reports false.  In karaoke_universal.py's player, however, `play` returns
immediately: no audio, no frames, no Finished transition. -/
theorem empty_timeline_degraded_mode :
    load_lyrics "" = [] ∧
    duration (load_lyrics "") = 0 ∧
    (∀ samples : List (Bool × ℚ),
      (playMain (load_lyrics "") samples).audioStarted = true ∧
      (playMain (load_lyrics "") samples).frames = [] ∧
      (playMain (load_lyrics "") samples).finished = audioOnlyWait samples ∧
      (playUniversal (load_lyrics "") samples).audioStarted = false ∧
      (playUniversal (load_lyrics "") samples).frames = [] ∧
      (playUniversal (load_lyrics "") samples).finished = false) ∧
    (∀ samples : List (Bool × ℚ),
      audioOnlyWait samples = true ↔ ∃ s ∈ samples, s.1 = false) := by
  have h0 : load_lyrics "" = [] := by decide
  refine ⟨h0, by decide, fun samples => ?_, audioOnlyWait_iff⟩
  rw [h0]
  exact ⟨rfl, rfl, rfl, rfl, rfl, rfl⟩

theorem mem_pyStrip {x : Char} {cs : List Char} (h : x ∈ pyStrip cs) : x ∈ cs := by
  unfold pyStrip at h
  rw [List.mem_reverse] at h
  have h1 := (List.dropWhile_sublist _).mem h
  rw [List.mem_reverse] at h1
  exact (List.dropWhile_sublist _).mem h1

theorem splitOnChar_ne_nil (sep : Char) (l : List Char) : splitOnChar sep l ≠ [] := by
  cases l with
  | nil => simp [splitOnChar]
  | cons c rest =>
    unfold splitOnChar
    by_cases h : c = sep
    · simp [h]
    · simp only [h, if_false]
      cases splitOnChar sep rest <;> simp

theorem mem_of_mem_splitOnChar {sep : Char} {l : List Char} {g : List Char} {x : Char}
    (hg : g ∈ splitOnChar sep l) (hx : x ∈ g) : x ∈ l := by
  induction l generalizing g with
  | nil =>
    simp [splitOnChar] at hg
    subst hg
    simp at hx
  | cons c rest ih =>
    unfold splitOnChar at hg
    by_cases h : c = sep
    · simp only [h, if_true, List.mem_cons] at hg
      rcases hg with rfl | hg
      · simp at hx
      · exact List.mem_cons_of_mem _ (ih hg hx)
    · simp only [h, if_false] at hg
      cases hsp : splitOnChar sep rest with
      | nil => exact absurd hsp (splitOnChar_ne_nil sep rest)
      | cons g' gs =>
        rw [hsp] at hg
        rcases List.mem_cons.mp hg with rfl | hg2
        · rcases List.mem_cons.mp hx with rfl | hx2
          · exact List.mem_cons_self _ _
          · exact List.mem_cons_of_mem _ (ih (hsp ▸ List.mem_cons_self g' gs) hx2)
        · exact List.mem_cons_of_mem _ (ih (hsp ▸ List.mem_cons_of_mem g' hg2) hx)

theorem pyInt_nonneg {cs : List Char} {z : Int} (h : pyInt cs = some z)
    (hnm : '-' ∉ cs) : 0 ≤ z := by
  unfold pyInt at h
  cases hs : pyStrip cs with
  | nil => rw [hs] at h; cases h
  | cons c rest =>
    rw [hs] at h
    dsimp only at h
    by_cases hplus : c = '+'
    · rw [if_pos hplus] at h
      split at h
      · cases h; exact Int.ofNat_nonneg _
      · cases h
    · rw [if_neg hplus] at h
      by_cases hminus : c = '-'
      · exfalso
        apply hnm
        apply mem_pyStrip
        rw [hs, hminus]
        exact List.mem_cons_self _ _
      · rw [if_neg hminus] at h
        split at h
        · cases h; exact Int.ofNat_nonneg _
        · cases h

theorem parseLine_inv (raw : List Char) (ll : LyricLine) (h : parseLine raw = some ll) :
    ∃ m s c : Int,
      ll.time = lyricTime m s c ∧
      (∃ p0, pyInt p0 = some m ∧ ∀ x ∈ p0, x ∈ raw) ∧
      (∃ s0, pyInt s0 = some s ∧ ∀ x ∈ s0, x ∈ raw) ∧
      (c = 0 ∨ ∃ s1, pyInt s1 = some c ∧ ∀ x ∈ s1, x ∈ raw) := by
  unfold parseLine at h
  dsimp only at h
  cases hb : findChar ']' (pyStrip raw) with
  | none => rw [hb] at h; cases h
  | some bp =>
    rw [hb] at h
    dsimp only at h
    split at h
    · cases h
    · rename_i hne
      cases hs : splitOnChar ':' (((pyStrip raw).take bp).drop 1) with
      | nil => rw [hs] at h; cases h
      | cons p0 ps =>
        rw [hs] at h
        dsimp only at h
        have hmemTs : ∀ g ∈ splitOnChar ':' (((pyStrip raw).take bp).drop 1),
            ∀ x ∈ g, x ∈ raw := by
          intro g hg x hx
          have h1 := mem_of_mem_splitOnChar hg hx
          have h2 := List.mem_of_mem_drop h1
          have h3 := List.mem_of_mem_take h2
          exact mem_pyStrip h3
        cases hm : pyInt p0 with
        | none => rw [hm] at h; cases h
        | some m =>
          rw [hm] at h
          dsimp only at h
          cases ps with
          | nil => dsimp only at h; cases h
          | cons p1 rest =>
            dsimp only at h
            have hmemP1 : ∀ g ∈ splitOnChar '.' p1, ∀ x ∈ g, x ∈ raw := by
              intro g hg x hx
              exact hmemTs p1 (hs ▸ List.mem_cons_of_mem _ (List.mem_cons_self _ _))
                x (mem_of_mem_splitOnChar hg hx)
            cases hsp : splitOnChar '.' p1 with
            | nil => rw [hsp] at h; cases h
            | cons s0 ss =>
              rw [hsp] at h
              dsimp only at h
              cases hs0 : pyInt s0 with
              | none => rw [hs0] at h; cases h
              | some s =>
                rw [hs0] at h
                dsimp only at h
                cases ss with
                | nil =>
                  dsimp only at h
                  cases h
                  refine ⟨m, s, 0, rfl,
                    ⟨p0, hm, fun x hx => hmemTs p0 (hs ▸ List.mem_cons_self _ _) x hx⟩,
                    ⟨s0, hs0, fun x hx => hmemP1 s0 (hsp ▸ List.mem_cons_self _ _) x hx⟩,
                    Or.inl rfl⟩
                | cons s1 ss' =>
                  dsimp only at h
                  cases hs1 : pyInt s1 with
                  | none => rw [hs1] at h; cases h
                  | some c =>
                    rw [hs1] at h
                    dsimp only at h
                    cases h
                    refine ⟨m, s, c, rfl,
                      ⟨p0, hm, fun x hx => hmemTs p0 (hs ▸ List.mem_cons_self _ _) x hx⟩,
                      ⟨s0, hs0, fun x hx => hmemP1 s0 (hsp ▸ List.mem_cons_self _ _) x hx⟩,
                      Or.inr ⟨s1, hs1, fun x hx =>
                        hmemP1 s1 (hsp ▸ List.mem_cons_of_mem _ (List.mem_cons_self _ _)) x hx⟩⟩

/-- Counterexample to C3 as stated: the line `00:1]hi` contains no `[` at
all, so the claim's keep rule (`specKeep`, modelled from the spec's words)
rejects it, yet the parser keeps it (with time `1.0` and text `hi`): the
source only ever tests for `]` and skips the character at index 0
unconditionally, whatever it is. -/
theorem line_keeping_rule_as_stated_false :
    (load_lyrics "00:1]hi").length = 1 ∧ specKeep "00:1]hi".data = false := by
  decide

/-- C3 amended: a line contributes a LyricLine if and only if, after
stripping, it contains `]`, the text after the first `]` is non-empty
after trimming, and the segment from index 1 (the first character is
skipped unconditionally — a `[` is never required) up to the first `]`
splits on `:` into at least two fields of which the first parses as a
(signed) Python int and the second, split on `.`, has an int first piece
and an int second piece when one exists (fields and pieces beyond those
are ignored); all other lines are dropped, and parsing, being a total
function, never raises a hard error. -/
theorem line_keeping_rule (raw : List Char) :
    (parseLine raw).isSome = codeKeep raw := by
  unfold parseLine codeKeep
  dsimp only
  cases h : findChar ']' (pyStrip raw) with
  | none => rfl
  | some bp =>
    by_cases ht : (pyStrip ((pyStrip raw).drop (bp + 1))).isEmpty
    · simp [ht]
    · simp only [ht, if_false, Bool.not_false, Bool.true_and, Bool.false_eq_true]
      cases hs : splitOnChar ':' (((pyStrip raw).take bp).drop 1) with
      | nil => rfl
      | cons p0 ps =>
        cases hm : pyInt p0 with
        | none => cases ps <;> simp [hm]
        | some m =>
          cases ps with
          | nil => simp [hm]
          | cons p1 rest =>
            cases hsp : splitOnChar '.' p1 with
            | nil => simp [hm, hsp]
            | cons s0 ss =>
              cases hs0 : pyInt s0 with
              | none => simp [hm, hsp, hs0]
              | some s =>
                cases ss with
                | nil => simp [hm, hsp, hs0]
                | cons s1 ss' =>
                  cases hs1 : pyInt s1 with
                  | none => simp [hm, hsp, hs0, hs1]
                  | some c => simp [hm, hsp, hs0, hs1]

/-- C4: the time of every kept line is `minutes*60 + seconds + centi/100`
for Python ints parsed out of the line (with `centi = 0` when the
centiseconds piece is absent); in particular `[01:02.50]hello` parses to
time `62.5` and `[00:00]hi` (no centiseconds) to time `0.0`. -/
theorem timestamp_semantics :
    ((load_lyrics "[01:02.50]hello").map fun l => (l.time, l.text)) =
      [((62.5 : ℚ), "hello")] ∧
    ((load_lyrics "[00:00]hi").map fun l => (l.time, l.text)) = [((0 : ℚ), "hi")] ∧
    ∀ raw ll, parseLine raw = some ll →
      ∃ m s c : Int,
        ll.time = (m : ℚ) * 60 + (s : ℚ) + (c : ℚ) / 100 ∧
        (∃ p0, pyInt p0 = some m ∧ ∀ x ∈ p0, x ∈ raw) ∧
        (∃ s0, pyInt s0 = some s ∧ ∀ x ∈ s0, x ∈ raw) ∧
        (c = 0 ∨ ∃ s1, pyInt s1 = some c ∧ ∀ x ∈ s1, x ∈ raw) := by
  refine ⟨?_, by decide, fun raw ll h => ?_⟩
  · have h62 : (62.5 : ℚ) = mkRat 125 2 := by
      rw [Rat.mkRat_eq_div]; norm_num
    rw [h62]
    decide
  · obtain ⟨m, s, c, ht, hp0, hs0, hc⟩ := parseLine_inv raw ll h
    exact ⟨m, s, c, by rw [ht, lyricTime_eq], hp0, hs0, hc⟩

/-- Witness for C4 at the line `[00:30.25]z` (time `30.25 = 121/4`). -/
theorem timestamp_semantics_witness :
    ∃ m s c : Int,
      (⟨mkRat 121 4, "z", "00:30.25".data⟩ : LyricLine).time =
        (m : ℚ) * 60 + (s : ℚ) + (c : ℚ) / 100 ∧
      (∃ p0, pyInt p0 = some m ∧ ∀ x ∈ p0, x ∈ "[00:30.25]z".data) ∧
      (∃ s0, pyInt s0 = some s ∧ ∀ x ∈ s0, x ∈ "[00:30.25]z".data) ∧
      (c = 0 ∨ ∃ s1, pyInt s1 = some c ∧ ∀ x ∈ s1, x ∈ "[00:30.25]z".data) :=
  timestamp_semantics.2.2 "[00:30.25]z".data ⟨mkRat 121 4, "z", "00:30.25".data⟩
    (by decide)

/-- Counterexample to C6 as stated: Python's `int` parses *signed*
integers, so `[-1:00]oops` is kept with the negative time `-60`. -/
theorem non_negative_times_as_stated_false :
    ∃ ll ∈ load_lyrics "[-1:00]oops", ll.time < 0 := by
  decide

/-- C6 amended: a kept line's time is non-negative whenever the line
contains no `-` character (the components then parse as non-negative
ints); a component that fails to parse as an int drops only that line,
but a negative component is accepted and can store a negative time. -/
theorem non_negative_times (raw : List Char) (ll : LyricLine)
    (h : parseLine raw = some ll) (hnm : '-' ∉ raw) : 0 ≤ ll.time := by
  obtain ⟨m, s, c, ht, ⟨p0, hm, hp0⟩, ⟨s0, hs0, hps0⟩, hc⟩ := parseLine_inv raw ll h
  have hm0 : 0 ≤ m := pyInt_nonneg hm fun hx => hnm (hp0 _ hx)
  have hs0n : 0 ≤ s := pyInt_nonneg hs0 fun hx => hnm (hps0 _ hx)
  have hc0 : 0 ≤ c := by
    rcases hc with rfl | ⟨s1, hs1, hps1⟩
    · exact le_refl 0
    · exact pyInt_nonneg hs1 fun hx => hnm (hps1 _ hx)
  rw [ht, lyricTime_eq]
  have hmq : (0 : ℚ) ≤ (m : ℚ) := by exact_mod_cast hm0
  have hsq : (0 : ℚ) ≤ (s : ℚ) := by exact_mod_cast hs0n
  have hcq : (0 : ℚ) ≤ (c : ℚ) := by exact_mod_cast hc0
  have h60 : (0 : ℚ) ≤ 60 := by norm_num
  have h100 : (0 : ℚ) ≤ 100 := by norm_num
  exact add_nonneg (add_nonneg (mul_nonneg hmq h60) hsq) (div_nonneg hcq h100)

/-- Witness for C6 at the line `[00:01]hi`. -/
theorem non_negative_times_witness :
    parseLine "[00:01]hi".data = some ⟨1, "hi", "00:01".data⟩ ∧
    '-' ∉ "[00:01]hi".data ∧
    0 ≤ ((⟨1, "hi", "00:01".data⟩ : LyricLine)).time :=
  ⟨by decide, by decide,
    non_negative_times "[00:01]hi".data ⟨1, "hi", "00:01".data⟩
      (by decide) (by decide)⟩


/-- Inserting `x` into `l` puts it before every element of equal time, so
the equal-time sublist gains `x` at its front. -/
theorem filter_time_orderedInsert (t : ℚ) (x : LyricLine) (l : List LyricLine) :
    (List.orderedInsert timeLE x l).filter (fun y => decide (y.time = t)) =
      if x.time = t then x :: l.filter (fun y => decide (y.time = t))
      else l.filter (fun y => decide (y.time = t)) := by
  induction l with
  | nil =>
    by_cases hx : x.time = t <;> simp [List.orderedInsert, List.filter, hx]
  | cons y ys ih =>
    rw [List.orderedInsert]
    by_cases hr : timeLE x y
    · rw [if_pos hr]
      by_cases hx : x.time = t <;> simp [hx, List.filter]
    · rw [if_neg hr]
      have hyx : y.time < x.time := not_le.mp hr
      by_cases hy : y.time = t
      · have hx : ¬ x.time = t := by
          intro hx
          rw [hx, ← hy] at hyx
          exact lt_irrefl _ hyx
        simp [List.filter, hy, hx, ih]
      · by_cases hx : x.time = t <;> simp [List.filter, hy, hx, ih]

/-- Stable insertion sort preserves each equal-time sublist. -/
theorem filter_time_insertionSort (t : ℚ) (l : List LyricLine) :
    (l.insertionSort timeLE).filter (fun y => decide (y.time = t)) =
      l.filter (fun y => decide (y.time = t)) := by
  induction l with
  | nil => rfl
  | cons x xs ih =>
    rw [List.insertionSort, filter_time_orderedInsert]
    by_cases hx : x.time = t <;> simp [hx, ih, List.filter]

/-- C5: parsing always yields a timeline sorted ascending by time (each
adjacent pair is in order), and lines with equal times keep their original
relative parse order: Python's `list.sort` is a stable sort by the `time`
key, modelled by stable insertion sort; the timeline list is a pure value
the loop never mutates afterwards. -/
theorem sort_invariant (text : String) :
    List.Pairwise (fun a b : LyricLine => a.time ≤ b.time) (load_lyrics text) ∧
    (∀ i : Nat, ∀ h : i + 1 < (load_lyrics text).length,
      ((load_lyrics text).get ⟨i, Nat.lt_of_succ_lt h⟩).time ≤
        ((load_lyrics text).get ⟨i + 1, h⟩).time) ∧
    ∀ t : ℚ, (load_lyrics text).filter (fun l => decide (l.time = t)) =
      (parsedInOrder text).filter (fun l => decide (l.time = t)) := by
  have hs : List.Pairwise timeLE (load_lyrics text) :=
    List.sorted_insertionSort timeLE (parsedInOrder text)
  refine ⟨hs, fun i h => ?_, fun t => filter_time_insertionSort t _⟩
  exact List.pairwise_iff_get.mp hs ⟨i, Nat.lt_of_succ_lt h⟩ ⟨i + 1, h⟩ (by simp)


theorem isPyDigit_toNat {c : Char} (h : isPyDigit c = true) :
    48 <= c.toNat /\ c.toNat <= 57 := by
  unfold isPyDigit at h
  simp only [Bool.and_eq_true, decide_eq_true_eq] at h
  exact h

theorem isPyDigit_ne {c : Char} (h : isPyDigit c = true) :
    c ≠ '_' ∧ c ≠ ':' ∧ c ≠ '.' ∧ c ≠ '+' ∧ c ≠ '-' ∧ c ≠ '[' ∧ c ≠ ']' ∧
    c ≠ '\n' ∧ c ≠ '\r' ∧ isPyWs c = false := by
  obtain ⟨h1, h2⟩ := isPyDigit_toNat h
  have key : ∀ ch : Char, ch.toNat < 48 ∨ 57 < ch.toNat → c ≠ ch := by
    intro ch hch he
    subst he
    omega
  refine ⟨key _ (by decide), key _ (by decide), key _ (by decide), key _ (by decide),
    key _ (by decide), key _ (by decide), key _ (by decide), key _ (by decide),
    key _ (by decide), ?_⟩
  cases hb : isPyWs c with
  | false => rfl
  | true =>
    exfalso
    unfold isPyWs at hb
    simp only [Bool.or_eq_true, decide_eq_true_eq] at hb
    rcases hb with ((((hw | hw) | hw) | hw) | hw) | hw <;>
      (subst hw; exact absurd h1 (by decide))

theorem digitVal_digitChar {d : Nat} (h : d < 10) : digitVal (digitChar d) = d := by
  interval_cases d <;> decide

theorem isPyDigit_digitChar {d : Nat} (h : d < 10) : isPyDigit (digitChar d) = true := by
  interval_cases d <;> decide

theorem digitsVal_append_singleton (l : List Char) (c : Char) :
    digitsVal (l ++ [c]) = digitsVal l * 10 + digitVal c := by
  unfold digitsVal
  rw [List.foldl_append]
  rfl

theorem natToCharsAux_spec :
    ∀ n fuel, n < fuel →
      natToCharsAux fuel n ≠ [] ∧
      (∀ c ∈ natToCharsAux fuel n, isPyDigit c = true) ∧
      digitsVal (natToCharsAux fuel n) = n := by
  intro n
  induction n using Nat.strong_induction_on with
  | _ n ih =>
    intro fuel hf
    cases fuel with
    | zero => omega
    | succ f =>
      by_cases h10 : n < 10
      · unfold natToCharsAux
        rw [if_pos h10]
        refine ⟨by simp, ?_, ?_⟩
        · intro c hc
          simp only [List.mem_singleton] at hc
          subst hc
          exact isPyDigit_digitChar h10
        · show digitsVal ([] ++ [digitChar n]) = n
          rw [digitsVal_append_singleton]
          show 0 * 10 + digitVal (digitChar n) = n
          rw [digitVal_digitChar h10]
          omega
      · unfold natToCharsAux
        rw [if_neg h10]
        have hdiv : n / 10 < n := Nat.div_lt_self (by omega) (by omega)
        have hdivf : n / 10 < f := by omega
        obtain ⟨hne, hdig, hval⟩ := ih (n / 10) hdiv f hdivf
        refine ⟨by simp, ?_, ?_⟩
        · intro c hc
          rcases List.mem_append.mp hc with hc | hc
          · exact hdig c hc
          · simp only [List.mem_singleton] at hc
            subst hc
            exact isPyDigit_digitChar (Nat.mod_lt _ (by omega))
        · rw [digitsVal_append_singleton, hval, digitVal_digitChar (Nat.mod_lt _ (by omega))]
          omega

theorem natToChars_ne_nil (n : Nat) : natToChars n ≠ [] :=
  (natToCharsAux_spec n (n + 1) (Nat.lt_succ_self n)).1

theorem natToChars_digits (n : Nat) : ∀ c ∈ natToChars n, isPyDigit c = true :=
  (natToCharsAux_spec n (n + 1) (Nat.lt_succ_self n)).2.1

theorem digitsVal_natToChars (n : Nat) : digitsVal (natToChars n) = n :=
  (natToCharsAux_spec n (n + 1) (Nat.lt_succ_self n)).2.2

theorem pad2_digits (n : Nat) : ∀ c ∈ pad2 n, isPyDigit c = true := by
  unfold pad2
  split
  · intro c hc
    rcases List.mem_cons.mp hc with rfl | hc
    · decide
    · exact natToChars_digits n c hc
  · exact natToChars_digits n

theorem pad2_ne_nil (n : Nat) : pad2 n ≠ [] := by
  unfold pad2
  split
  · simp
  · exact natToChars_ne_nil n

theorem digitsVal_pad2 (n : Nat) : digitsVal (pad2 n) = n := by
  unfold pad2
  split
  · show digitsVal ('0' :: natToChars n) = n
    have : digitsVal ('0' :: natToChars n) = digitsVal (natToChars n) := rfl
    rw [this, digitsVal_natToChars]
  · exact digitsVal_natToChars n


theorem dropWhile_eq_self_of_none {p : Char → Bool} {l : List Char}
    (h : ∀ c ∈ l, p c = false) : l.dropWhile p = l := by
  cases l with
  | nil => rfl
  | cons c rest =>
    rw [List.dropWhile_cons, h c (List.mem_cons_self _ _)]
    simp

theorem pyStrip_of_no_ws {l : List Char} (h : ∀ c ∈ l, isPyWs c = false) :
    pyStrip l = l := by
  unfold pyStrip
  rw [dropWhile_eq_self_of_none h]
  rw [dropWhile_eq_self_of_none fun c hc => h c (List.mem_reverse.mp hc)]
  exact List.reverse_reverse l

theorem validDigitsTail_of_digits {l : List Char} (h : ∀ c ∈ l, isPyDigit c = true) :
    validDigitsTail l = true := by
  induction l with
  | nil => rfl
  | cons c rest ih =>
    unfold validDigitsTail
    have hc := h c (List.mem_cons_self _ _)
    rw [if_neg (isPyDigit_ne hc).1, hc,
      ih fun x hx => h x (List.mem_cons_of_mem _ hx)]
    rfl

theorem validDigits_of_digits {l : List Char} (hne : l ≠ [])
    (h : ∀ c ∈ l, isPyDigit c = true) : validDigits l = true := by
  cases l with
  | nil => exact absurd rfl hne
  | cons c rest =>
    unfold validDigits
    dsimp only
    rw [h c (List.mem_cons_self _ _),
      validDigitsTail_of_digits fun x hx => h x (List.mem_cons_of_mem _ hx)]
    rfl

theorem filter_underscore_of_digits {l : List Char}
    (h : ∀ c ∈ l, isPyDigit c = true) : (l.filter fun c => c ≠ '_') = l := by
  apply List.filter_eq_self.mpr
  intro a ha
  simpa using (isPyDigit_ne (h a ha)).1

theorem pyInt_digits {l : List Char} (hne : l ≠ [])
    (h : ∀ c ∈ l, isPyDigit c = true) : pyInt l = some ((digitsVal l : Int)) := by
  unfold pyInt
  rw [pyStrip_of_no_ws fun c hc => (isPyDigit_ne (h c hc)).2.2.2.2.2.2.2.2.2]
  cases l with
  | nil => exact absurd rfl hne
  | cons c rest =>
    dsimp only
    have hc := h c (List.mem_cons_self _ _)
    rw [if_neg (isPyDigit_ne hc).2.2.2.1, if_neg (isPyDigit_ne hc).2.2.2.2.1,
      if_pos (validDigits_of_digits (by simp) h),
      filter_underscore_of_digits h]

theorem pyInt_pad2 (n : Nat) : pyInt (pad2 n) = some (n : Int) := by
  rw [pyInt_digits (pad2_ne_nil n) (pad2_digits n), digitsVal_pad2]


theorem splitOnChar_of_no_sep {sep : Char} {l : List Char}
    (h : ∀ c ∈ l, c ≠ sep) : splitOnChar sep l = [l] := by
  induction l with
  | nil => rfl
  | cons c rest ih =>
    unfold splitOnChar
    rw [if_neg (h c (List.mem_cons_self _ _)),
      ih fun x hx => h x (List.mem_cons_of_mem _ hx)]

theorem splitOnChar_append {sep : Char} {a b : List Char}
    (h : ∀ c ∈ a, c ≠ sep) :
    splitOnChar sep (a ++ sep :: b) = a :: splitOnChar sep b := by
  induction a with
  | nil =>
    show splitOnChar sep (sep :: b) = [] :: _
    simp only [splitOnChar, if_pos]
  | cons c arest ih =>
    show splitOnChar sep (c :: (arest ++ sep :: b)) = _
    simp only [splitOnChar]
    rw [if_neg (h c (List.mem_cons_self _ _)),
      ih fun x hx => h x (List.mem_cons_of_mem _ hx)]

theorem findChar_cons_self (t : Char) (l : List Char) :
    findChar t (t :: l) = some 0 := by
  simp only [findChar, if_pos]

theorem findChar_append {t : Char} {a b : List Char} (h : ∀ c ∈ a, c ≠ t) :
    findChar t (a ++ t :: b) = some a.length := by
  induction a with
  | nil => exact findChar_cons_self t b
  | cons c arest ih =>
    show findChar t (c :: (arest ++ t :: b)) = _
    simp only [findChar]
    rw [if_neg (h c (List.mem_cons_self _ _)),
      ih fun x hx => h x (List.mem_cons_of_mem _ hx)]
    rfl

theorem head?_dropWhile {p : Char → Bool} {l : List Char} {c : Char}
    (h : (l.dropWhile p).head? = some c) : p c = false := by
  induction l with
  | nil => cases h
  | cons x rest ih =>
    rw [List.dropWhile_cons] at h
    by_cases hp : p x = true
    · rw [if_pos hp] at h
      exact ih h
    · rw [if_neg hp] at h
      cases h
      exact Bool.eq_false_iff.mpr hp

theorem rstripNL_getLast {l : List Char} {c : Char}
    (h : (rstripNL l).getLast? = some c) : (c = '\n' || c = '\r') = false := by
  unfold rstripNL at h
  rw [List.getLast?_reverse] at h
  exact head?_dropWhile h

theorem rstripNL_eq_self {l : List Char}
    (h : ∀ c, l.getLast? = some c → (c = '\n' || c = '\r') = false) :
    rstripNL l = l := by
  unfold rstripNL
  cases hl : l.reverse with
  | nil =>
    have hnil : l = [] := by
      have h2 := congrArg List.reverse hl
      rwa [List.reverse_reverse] at h2
    subst hnil
    rfl
  | cons c rest =>
    have hc : l.getLast? = some c := by
      rw [← List.head?_reverse, hl]
      rfl
    have hrev : (c :: rest).reverse = l := by
      have h2 := congrArg List.reverse hl
      rw [List.reverse_reverse] at h2
      exact h2.symm
    rw [List.dropWhile_cons, h c hc]
    rw [if_neg (by simp)]
    exact hrev

theorem rstripNL_idem (l : List Char) : rstripNL (rstripNL l) = rstripNL l :=
  rstripNL_eq_self fun _ hc => rstripNL_getLast hc


theorem contains_middle_dot (a b : List Char) :
    (a ++ '.' :: b).contains '.' = true := by
  simp

theorem parse_timestamp_pads (M S C : Nat) :
    parse_timestamp (pad2 M ++ ':' :: (pad2 S ++ '.' :: pad2 C)) =
      some (lyricTime (M : Int) (S : Int) (C : Int)) := by
  have hM : ∀ c ∈ pad2 M, c ≠ ':' := fun c hc => (isPyDigit_ne (pad2_digits M c hc)).2.1
  have hS : ∀ c ∈ pad2 S, c ≠ '.' := fun c hc => (isPyDigit_ne (pad2_digits S c hc)).2.2.1
  have hC : ∀ c ∈ pad2 C, c ≠ '.' := fun c hc => (isPyDigit_ne (pad2_digits C c hc)).2.2.1
  have hSC : ∀ c ∈ pad2 S ++ '.' :: pad2 C, c ≠ ':' := by
    intro c hc
    rcases List.mem_append.mp hc with hc | hc
    · exact (isPyDigit_ne (pad2_digits S c hc)).2.1
    · rcases List.mem_cons.mp hc with rfl | hc
      · decide
      · exact (isPyDigit_ne (pad2_digits C c hc)).2.1
  unfold parse_timestamp
  rw [splitOnChar_append hM, splitOnChar_of_no_sep hSC]
  dsimp only
  rw [pyInt_pad2]
  rw [contains_middle_dot]
  dsimp only
  rw [splitOnChar_append hS, splitOnChar_of_no_sep hC]
  dsimp only
  rw [pyInt_pad2, pyInt_pad2]
  rfl


theorem rat_floor_eq (q : ℚ) : Rat.floor q = ⌊q⌋ := rfl

theorem format_arith (t : ℚ) (h0 : 0 ≤ t) (k : Int) (hk : (k : ℚ) = 100 * t) :
    0 ≤ ⌊t / 60⌋ ∧
    0 ≤ ⌊t - 60 * ((⌊t / 60⌋ : Int) : ℚ)⌋ ∧
    0 ≤ ⌊(t - 60 * ((⌊t / 60⌋ : Int) : ℚ) -
          ((⌊t - 60 * ((⌊t / 60⌋ : Int) : ℚ)⌋ : Int) : ℚ)) * 100⌋ ∧
    t = ((⌊t / 60⌋ : Int) : ℚ) * 60 + ((⌊t - 60 * ((⌊t / 60⌋ : Int) : ℚ)⌋ : Int) : ℚ) +
        ((⌊(t - 60 * ((⌊t / 60⌋ : Int) : ℚ) -
            ((⌊t - 60 * ((⌊t / 60⌋ : Int) : ℚ)⌋ : Int) : ℚ)) * 100⌋ : Int) : ℚ) / 100 := by
  have hm0 : 0 ≤ ⌊t / 60⌋ := Int.floor_nonneg.mpr (by positivity)
  set m := ⌊t / 60⌋ with hm
  have hdm : ((m : ℚ)) ≤ t / 60 := Int.floor_le _
  have hmt : 60 * (m : ℚ) ≤ t := by
    rw [le_div_iff₀ (by norm_num : (0:ℚ) < 60)] at hdm
    linarith
  set rem : ℚ := t - 60 * (m : ℚ) with hremdef
  have hrem0 : 0 ≤ rem := by rw [hremdef]; linarith
  have hs0 : 0 ≤ ⌊rem⌋ := Int.floor_nonneg.mpr hrem0
  set s := ⌊rem⌋ with hsdef
  have hds : ((s : ℚ)) ≤ rem := Int.floor_le _
  have hds2 : rem < (s : ℚ) + 1 := Int.lt_floor_add_one _
  set frac : ℚ := rem - (s : ℚ) with hfracdef
  have hfrac0 : 0 ≤ frac := by rw [hfracdef]; linarith
  have hc0 : 0 ≤ ⌊frac * 100⌋ := Int.floor_nonneg.mpr (by positivity)
  have hk2 : ((k - 6000 * m - 100 * s : Int) : ℚ) = frac * 100 := by
    push_cast
    rw [hfracdef, hremdef, hk]
    ring
  have hceq : ⌊frac * 100⌋ = k - 6000 * m - 100 * s := by
    rw [← hk2, Int.floor_intCast]
  refine ⟨hm0, hs0, hc0, ?_⟩
  rw [hceq]
  push_cast
  rw [hk]
  ring


theorem format_timestamp_shape (t : ℚ) (h0 : 0 ≤ t) :
    format_timestamp t =
      pad2 (⌊t / 60⌋).toNat ++ ':' ::
        (pad2 (⌊t - 60 * ((⌊t / 60⌋ : Int) : ℚ)⌋).toNat ++ '.' ::
          pad2 (⌊(t - 60 * ((⌊t / 60⌋ : Int) : ℚ) -
            ((⌊t - 60 * ((⌊t / 60⌋ : Int) : ℚ)⌋ : Int) : ℚ)) * 100⌋).toNat) := by
  unfold format_timestamp
  rw [if_neg (not_lt.mpr h0)]
  simp only [rat_floor_eq, qDiv_eq, qSub_eq, qMul_eq]

theorem parse_format_roundtrip {t : ℚ} (h0 : 0 ≤ t) {k : Int}
    (hk : (k : ℚ) = 100 * t) :
    parse_timestamp (format_timestamp t) = some t := by
  obtain ⟨hm0, hs0, hc0, harith⟩ := format_arith t h0 k hk
  rw [format_timestamp_shape t h0, parse_timestamp_pads]
  congr 1
  rw [lyricTime_eq]
  rw [Int.toNat_of_nonneg hm0, Int.toNat_of_nonneg hs0, Int.toNat_of_nonneg hc0]
  exact harith.symm


theorem parse_timestamp_inv {ts : List Char} {t : ℚ}
    (h : parse_timestamp ts = some t) : ∃ m s c : Int, t = lyricTime m s c := by
  unfold parse_timestamp at h
  cases hs : splitOnChar ':' ts with
  | nil => rw [hs] at h; cases h
  | cons p0 ps =>
    rw [hs] at h
    cases ps with
    | nil => dsimp only at h; cases h
    | cons p1 rest =>
      dsimp only at h
      cases hm : pyInt p0 with
      | none => rw [hm] at h; cases h
      | some m =>
        rw [hm] at h
        dsimp only at h
        by_cases hdot : p1.contains '.' = true
        · rw [if_pos hdot] at h
          cases hsp : splitOnChar '.' p1 with
          | nil => rw [hsp] at h; cases h
          | cons s0 ss =>
            rw [hsp] at h
            cases ss with
            | nil => dsimp only at h; cases h
            | cons s1 ss2 =>
              dsimp only at h
              cases hs0 : pyInt s0 with
              | none => rw [hs0] at h; dsimp only at h; cases h
              | some s =>
                cases hs1 : pyInt s1 with
                | none => rw [hs0, hs1] at h; dsimp only at h; cases h
                | some c =>
                  rw [hs0, hs1] at h
                  dsimp only at h
                  cases h
                  exact ⟨m, s, c, rfl⟩
        · rw [if_neg hdot] at h
          cases hp1 : pyInt p1 with
          | none => rw [hp1] at h; cases h
          | some s =>
            rw [hp1] at h
            dsimp only at h
            cases h
            exact ⟨m, s, 0, rfl⟩

theorem lyricTime_hundred (m s c : Int) :
    ((6000 * m + 100 * s + c : Int) : ℚ) = 100 * lyricTime m s c := by
  rw [lyricTime_eq]
  push_cast
  ring

theorem format_chars {u : ℚ} (h0 : 0 ≤ u) :
    ∀ ch ∈ format_timestamp u, isPyDigit ch = true ∨ ch = ':' ∨ ch = '.' := by
  rw [format_timestamp_shape u h0]
  intro ch hch
  rcases List.mem_append.mp hch with hch | hch
  · exact Or.inl (pad2_digits _ ch hch)
  · rcases List.mem_cons.mp hch with rfl | hch
    · exact Or.inr (Or.inl rfl)
    · rcases List.mem_append.mp hch with hch | hch
      · exact Or.inl (pad2_digits _ ch hch)
      · rcases List.mem_cons.mp hch with rfl | hch
        · exact Or.inr (Or.inr rfl)
        · exact Or.inl (pad2_digits _ ch hch)

theorem format_chars_ne_rbracket {u : ℚ} (h0 : 0 ≤ u) :
    ∀ ch ∈ format_timestamp u, ch ≠ ']' := by
  intro ch hch
  rcases format_chars h0 ch hch with hd | rfl | rfl
  · exact (isPyDigit_ne hd).2.2.2.2.2.2.1
  · decide
  · decide


theorem timedPairOf_cases (off : ℚ) (line0 : List Char) :
    (timedPairOf line0 = none ∧ adjustLine off line0 = rstripNL line0) ∨
    (∃ t text, timedPairOf line0 = some (t, text) ∧
      adjustLine off line0 = '[' :: (format_timestamp (qAdd t off) ++ ']' :: text) ∧
      (text = [] ∨ ∃ c, text.getLast? = some c ∧ (c = '\n' || c = '\r') = false)) := by
  unfold timedPairOf adjustLine
  dsimp only
  by_cases hcond : (!(rstripNL line0).isEmpty && (rstripNL line0).contains '[' &&
      (rstripNL line0).contains ']') = true
  · rw [if_pos hcond, if_pos hcond]
    cases hbs : findChar '[' (rstripNL line0) with
    | none => exact Or.inl ⟨rfl, rfl⟩
    | some bs =>
      cases hbe : findChar ']' (rstripNL line0) with
      | none => exact Or.inl ⟨rfl, rfl⟩
      | some be =>
        dsimp only
        by_cases hlt : bs < be
        · rw [if_pos hlt, if_pos hlt]
          cases hparse : parse_timestamp (((rstripNL line0).take be).drop (bs + 1)) with
          | none => exact Or.inl ⟨rfl, rfl⟩
          | some t =>
            refine Or.inr ⟨t, (rstripNL line0).drop (be + 1), rfl, rfl, ?_⟩
            by_cases htext : (rstripNL line0).drop (be + 1) = []
            · exact Or.inl htext
            · right
              cases hlast : ((rstripNL line0).drop (be + 1)).getLast? with
              | none =>
                exfalso
                rw [List.getLast?_eq_none_iff] at hlast
                exact htext hlast
              | some c =>
                refine ⟨c, rfl, ?_⟩
                rw [getLast?_drop_of_ne_nil htext] at hlast
                exact rstripNL_getLast hlast
        · rw [if_neg hlt, if_neg hlt]
          exact Or.inl ⟨rfl, rfl⟩
  · rw [if_neg hcond, if_neg hcond]
    exact Or.inl ⟨rfl, rfl⟩


theorem timedPairOf_formatted {u : ℚ} {text : List Char} (h0 : 0 ≤ u)
    {k : Int} (hk : (k : ℚ) = 100 * u)
    (htext : text = [] ∨ ∃ c, text.getLast? = some c ∧ (c = '\n' || c = '\r') = false) :
    timedPairOf ('[' :: (format_timestamp u ++ ']' :: text)) = some (u, text) := by
  have hfmtne : ∀ ch ∈ '[' :: format_timestamp u, ch ≠ ']' := by
    intro ch hc
    rcases List.mem_cons.mp hc with rfl | hc
    · decide
    · exact format_chars_ne_rbracket h0 ch hc
  have hrs : rstripNL ('[' :: (format_timestamp u ++ ']' :: text)) =
      '[' :: (format_timestamp u ++ ']' :: text) := by
    apply rstripNL_eq_self
    intro c hc
    rw [show '[' :: (format_timestamp u ++ ']' :: text) =
      ('[' :: format_timestamp u) ++ ']' :: text from rfl, List.getLast?_append] at hc
    cases text with
    | nil =>
      have : c = ']' := by
        have h1 : ((']' :: ([] : List Char)).getLast?).or
            (('[' :: format_timestamp u).getLast?) = some ']' := rfl
        rw [h1] at hc
        exact (Option.some_inj.mp hc).symm
      subst this
      decide
    | cons x xs =>
      rcases htext with habs | ⟨c2, hc2, hnl⟩
      · cases habs
      · rw [List.getLast?_cons_cons, hc2] at hc
        have : c = c2 := by
          have h1 : (some c2).or (('[' :: format_timestamp u).getLast?) = some c2 := rfl
          rw [h1] at hc
          exact (Option.some_inj.mp hc).symm
        subst this
        exact hnl
  have hbs : findChar '[' ('[' :: (format_timestamp u ++ ']' :: text)) = some 0 :=
    findChar_cons_self _ _
  have hbe : findChar ']' ('[' :: (format_timestamp u ++ ']' :: text)) =
      some ('[' :: format_timestamp u).length :=
    findChar_append hfmtne
  have hcond : (!('[' :: (format_timestamp u ++ ']' :: text)).isEmpty &&
      ('[' :: (format_timestamp u ++ ']' :: text)).contains '[' &&
      ('[' :: (format_timestamp u ++ ']' :: text)).contains ']') = true := by
    simp
  have hts : ((('[' :: (format_timestamp u ++ ']' :: text)).take
      ('[' :: format_timestamp u).length).drop (0 + 1)) = format_timestamp u := by
    rw [show '[' :: (format_timestamp u ++ ']' :: text) =
      ('[' :: format_timestamp u) ++ ']' :: text from rfl, List.take_left]
    rfl
  have htext2 : ('[' :: (format_timestamp u ++ ']' :: text)).drop
      (('[' :: format_timestamp u).length + 1) = text := by
    rw [show '[' :: (format_timestamp u ++ ']' :: text) =
      (('[' :: format_timestamp u) ++ [']']) ++ text by simp]
    rw [show ('[' :: format_timestamp u).length + 1 =
      (('[' :: format_timestamp u) ++ [']']).length by simp]
    exact List.drop_left _ _
  unfold timedPairOf
  dsimp only
  rw [hrs, if_pos hcond, hbs, hbe]
  dsimp only
  rw [if_pos (by simp : 0 < ('[' :: format_timestamp u).length)]
  rw [hts, htext2, parse_format_roundtrip h0 hk]
  rfl


theorem timedPairOf_rstrip (line0 : List Char) :
    timedPairOf (rstripNL line0) = timedPairOf line0 := by
  unfold timedPairOf
  rw [rstripNL_idem]

theorem adjustLine_rstrip (off : ℚ) (line0 : List Char) :
    adjustLine off (rstripNL line0) = adjustLine off line0 := by
  unfold adjustLine
  rw [rstripNL_idem]

theorem timedPairOf_time_form {line0 : List Char} {t : ℚ} {text : List Char}
    (h : timedPairOf line0 = some (t, text)) : ∃ m s c : Int, t = lyricTime m s c := by
  unfold timedPairOf at h
  dsimp only at h
  by_cases hcond : (!(rstripNL line0).isEmpty && (rstripNL line0).contains '[' &&
      (rstripNL line0).contains ']') = true
  · rw [if_pos hcond] at h
    cases hbs : findChar '[' (rstripNL line0) with
    | none => rw [hbs] at h; cases h
    | some bs =>
      cases hbe : findChar ']' (rstripNL line0) with
      | none => rw [hbs, hbe] at h; dsimp only at h; cases h
      | some be =>
        rw [hbs, hbe] at h
        dsimp only at h
        by_cases hlt : bs < be
        · rw [if_pos hlt] at h
          cases hp : parse_timestamp (((rstripNL line0).take be).drop (bs + 1)) with
          | none => rw [hp] at h; cases h
          | some t2 =>
            rw [hp] at h
            simp only [Option.map_some', Option.some_inj] at h
            obtain ⟨m, s, c, ht⟩ := parse_timestamp_inv hp
            refine ⟨m, s, c, ?_⟩
            rw [← ht]
            exact (congrArg Prod.fst h).symm
        · rw [if_neg hlt] at h; cases h
  · rw [if_neg hcond] at h; cases h

theorem adjust_roundtrip_line (line0 : List Char)
    (h : ∀ t text, timedPairOf line0 = some (t, text) → 0 ≤ t) :
    timedPairOf (adjustLine (-2) (adjustLine 2 line0)) = timedPairOf line0 := by
  rcases timedPairOf_cases 2 line0 with ⟨hnone, hadj⟩ | ⟨t, text, hsome, hadj, htext⟩
  · rw [hadj, adjustLine_rstrip]
    rcases timedPairOf_cases (-2) line0 with ⟨hn2, hadj2⟩ | ⟨t, text, habs, _, _⟩
    · rw [hadj2, timedPairOf_rstrip]
    · rw [hnone] at habs
      cases habs
  · have ht0 : 0 ≤ t := h t text hsome
    obtain ⟨m, s, c, htform⟩ := timedPairOf_time_form hsome
    have hk0 : ((6000 * m + 100 * s + c : Int) : ℚ) = 100 * t := by
      rw [htform]
      exact lyricTime_hundred m s c
    have hu1 : qAdd t 2 = t + 2 := by
      rw [qAdd_eq]
    have hu10 : 0 ≤ qAdd t 2 := by
      rw [hu1]
      linarith
    have hk1 : ((6000 * m + 100 * s + c + 200 : Int) : ℚ) = 100 * qAdd t 2 := by
      rw [hu1]
      push_cast
      push_cast at hk0
      linarith
    have hN1 : timedPairOf ('[' :: (format_timestamp (qAdd t 2) ++ ']' :: text)) =
        some (qAdd t 2, text) :=
      timedPairOf_formatted hu10 hk1 htext
    rw [hadj, hsome]
    rcases timedPairOf_cases (-2)
        ('[' :: (format_timestamp (qAdd t 2) ++ ']' :: text)) with
      ⟨hn, _⟩ | ⟨t2, text2, hsome2, hadj2, htext2⟩
    · rw [hN1] at hn
      cases hn
    · rw [hN1] at hsome2
      have ht2 : qAdd t 2 = t2 := congrArg Prod.fst (Option.some_inj.mp hsome2)
      have htx2 : text = text2 := congrArg Prod.snd (Option.some_inj.mp hsome2)
      subst ht2
      subst htx2
      rw [hadj2]
      have hu2 : qAdd (qAdd t 2) (-2) = t := by
        rw [qAdd_eq, qAdd_eq]
        ring
      rw [hu2]
      exact timedPairOf_formatted ht0 hk0 htext


/-- Two pair sequences with identical texts and times equal up to `eps`
agree with themselves (`pairsClose` is reflexive for `0 ≤ eps`). -/
theorem pairsClose_refl {eps : ℚ} (heps : 0 ≤ eps) :
    ∀ l : List (ℚ × List Char), pairsClose eps l l = true
  | [] => rfl
  | (t, x) :: rest => by
    unfold pairsClose
    rw [pairsClose_refl heps rest]
    simp [qSub_eq, heps]

/-- In the exact-rational idealization of the adjuster, the `+2` then
`-2` round trip preserves the `(time, text)` pairs of every file whose
parsed times are all non-negative.  This is a property of the idealized
arithmetic only: under the binary64 model the program itself can lose a
centisecond per pass (see the claim-C7 theorem
`adjust_centisecond_truncation_bug`). -/
theorem pairsOf_roundtrip (lines : List (List Char))
    (h : ∀ p ∈ pairsOf lines, 0 ≤ p.1) :
    pairsOf (adjust_lrc_timing (-2) (adjust_lrc_timing 2 lines)) = pairsOf lines := by
  induction lines with
  | nil => rfl
  | cons l ls ih =>
    have hl : ∀ t text, timedPairOf l = some (t, text) → 0 ≤ t := by
      intro t text ht
      apply h (t, text)
      unfold pairsOf
      rw [List.filterMap_cons, ht]
      exact List.mem_cons_self _ _
    have hls : ∀ p ∈ pairsOf ls, 0 ≤ p.1 := by
      intro p hp
      apply h p
      unfold pairsOf at hp ⊢
      rw [List.filterMap_cons]
      cases htl : timedPairOf l with
      | none => exact hp
      | some q => exact List.mem_cons_of_mem _ hp
    show pairsOf (adjustLine (-2) (adjustLine 2 l) ::
      adjust_lrc_timing (-2) (adjust_lrc_timing 2 ls)) = pairsOf (l :: ls)
    unfold pairsOf
    rw [List.filterMap_cons, List.filterMap_cons, adjust_roundtrip_line l hl]
    have ihq := ih hls
    unfold pairsOf at ihq
    cases htl : timedPairOf l with
    | none => exact ihq
    | some p => rw [ihq]


/-- C7: the claim states the spec's intended round-trip property (spec
section 8 lists it as a testable property), but the code does not have
it: the adjuster computes on binary64 floats, and
`int((remaining_seconds - secs) * 100)` truncates a product that falls
just below an integer.  For the one-line file `[00:58.29]x` — a perfectly
ordinary non-negative timestamp — the parsed time is
`8203588196232069 / 2^47 = 58.29 - 8.5e-16`; on the `+2` pass the product
`(remaining_seconds - secs) * 100` evaluates to `29 - 8.5e-14` and
`int()` truncates it to `28`, so the pass writes `[01:00.28]x`; the `-2`
pass then produces `[00:58.28]x`, and the final `(time, text)` pair
differs from the original by a full centisecond, four orders of magnitude
beyond the claimed `1e-6` tolerance.  (In exact arithmetic the round trip
would hold for non-negative times — `pairsOf_roundtrip`; lines with
negative parsed times are additionally clamped to `00:00.00` by
`format_timestamp`.) -/
theorem adjust_centisecond_truncation_bug :
    adjust_lrc_timing_float 2 ["[00:58.29]x".data] = ["[01:00.28]x".data] ∧
    adjust_lrc_timing_float (-2) (adjust_lrc_timing_float 2 ["[00:58.29]x".data]) =
      ["[00:58.28]x".data] ∧
    (∀ p ∈ pairsOf_float ["[00:58.29]x".data], 0 ≤ p.1) ∧
    pairsClose (mkRat 1 1000000) (pairsOf_float ["[00:58.29]x".data])
      (pairsOf_float (adjust_lrc_timing_float (-2)
        (adjust_lrc_timing_float 2 ["[00:58.29]x".data]))) = false := by
  decide

end Karaoke
